import Mathlib

/-!
# Verification of the PAW wallet core

Shallow embedding of the wallet key-management core of the `paw` repository:
the `PawWallet` class (`archive/sdk/python/paw/wallet.py`), the example wallet
(`archive/examples/python/basic/create_wallet.py`) and the Fernet-based
at-rest storage (`wallet/fernet_storage.py`).

Bytes are modelled as `List Nat` with every element `< 256`; strings that the
code only passes around opaquely (passwords, serialized state) are modelled
as their byte lists.  External library primitives that the code calls are
treated as follows:

* SHA-256 (`hashlib.sha256`), the bech32 helpers (`bech32.convertbits`,
  `bech32.bech32_encode`), and secp256k1 ECDSA (`ecdsa` package) are
  implemented concretely from their standard algorithms, which the spec
  requires bit-exactly.
* HMAC-SHA512, RIPEMD-160, PBKDF2, base64 and the Fernet token format are
  kept abstract (function parameters), with the properties the spec
  attributes to them carried as hypotheses.
* The BIP39 `mnemonic` library (`Mnemonic.generate` / `Mnemonic.check`) is
  not part of the repository; it is modelled from the spec (§4.1).

Randomness consumed by the code (`os.urandom` salts, Fernet IVs, the ECDSA
nonce drawn by `ecdsa.SigningKey.sign_digest`) is made explicit: each such
value is an extra argument of the embedded function.
-/

namespace Paw

/-- Bytes as natural numbers `< 256` (range carried as side conditions). -/
abbrev Bytes := List Nat

instance {ε α : Type} [DecidableEq ε] [DecidableEq α] : DecidableEq (Except ε α) :=
  fun x y =>
    match x, y with
    | .ok a, .ok b =>
        if h : a = b then isTrue (by rw [h]) else isFalse (by simp [h])
    | .error a, .error b =>
        if h : a = b then isTrue (by rw [h]) else isFalse (by simp [h])
    | .ok _, .error _ => isFalse (by simp)
    | .error _, .ok _ => isFalse (by simp)

/-! ## Bit/byte plumbing

The BIP39 checksum and the SHA-256 implementation both work on big-endian
bit strings; these are the conversions the python code performs with
`bin(...)`/`int.to_bytes` and friends. -/

/-- Big-endian bits of `n`, exactly `w` bits wide (`format(n, '0wb')`). -/
def natToBits : Nat → Nat → List Bool
  | 0, _ => []
  | w + 1, n => natToBits w (n / 2) ++ [n % 2 == 1]

/-- A big-endian bit string read back as a number (`int(bits, 2)`). -/
def bitsToNat (l : List Bool) : Nat :=
  l.foldl (fun a b => 2 * a + (if b then 1 else 0)) 0

/-- Big-endian byte string read as a number (`int.from_bytes(_, "big")`). -/
def bytesToNatBE (bs : Bytes) : Nat :=
  bs.foldl (fun a b => 256 * a + b) 0

/-- `n` as exactly `len` big-endian bytes (`int.to_bytes(len, "big")`). -/
def natToBytesBE : Nat → Nat → Bytes
  | 0, _ => []
  | len + 1, n => natToBytesBE len (n / 256) ++ [n % 256]

/-- Each byte expanded to its 8 big-endian bits. -/
def bytesToBits (bs : Bytes) : List Bool :=
  bs.flatMap (natToBits 8)

/-- Fuel-driven chunking; `chunksF l.length n l` splits `l` into groups of
`n` (structural recursion so that the kernel can evaluate it). -/
def chunksF {α : Type} : Nat → Nat → List α → List (List α)
  | 0, _, _ => []
  | _ + 1, _, [] => []
  | f + 1, n, a :: as => (a :: as).take n :: chunksF f n ((a :: as).drop n)

/-- Split a list into consecutive groups of `n`. -/
def chunks {α : Type} (n : Nat) (l : List α) : List (List α) :=
  chunksF l.length n l

/-- Big-endian bit string regrouped into bytes. -/
def bitsToBytes (l : List Bool) : Bytes :=
  (chunks 8 l).map bitsToNat

/-! ## SHA-256

Modelled from the spec: the repository calls `hashlib.sha256` (an external
library); the spec requires the standard SHA-256 function bit-exactly
(checksums in §4.1, address hashing in §4.3, digests in §4.4).  This is the
FIPS 180-4 algorithm, executable, on byte lists. -/

namespace SHA256

/-- 32-bit right rotate (values kept `< 2^32`). -/
def rotr (n x : Nat) : Nat := ((x >>> n) ||| (x <<< (32 - n))) % 4294967296

def bigS0 (x : Nat) : Nat := rotr 2 x ^^^ rotr 13 x ^^^ rotr 22 x

def bigS1 (x : Nat) : Nat := rotr 6 x ^^^ rotr 11 x ^^^ rotr 25 x

def smallS0 (x : Nat) : Nat := rotr 7 x ^^^ rotr 18 x ^^^ (x >>> 3)

def smallS1 (x : Nat) : Nat := rotr 17 x ^^^ rotr 19 x ^^^ (x >>> 10)

def ch (x y z : Nat) : Nat := (x &&& y) ^^^ ((x ^^^ 4294967295) &&& z)

def maj (x y z : Nat) : Nat := (x &&& y) ^^^ (x &&& z) ^^^ (y &&& z)

/-- The 64 round constants (FIPS 180-4 §4.2.2, in decimal; the first is
0x428a2f98, the last 0xc67178f2). -/
def K : List Nat :=
  [1116352408, 1899447441, 3049323471, 3921009573, 961987163, 1508970993,
   2453635748, 2870763221, 3624381080, 310598401, 607225278, 1426881987,
   1925078388, 2162078206, 2614888103, 3248222580, 3835390401, 4022224774,
   264347078, 604807628, 770255983, 1249150122, 1555081692, 1996064986,
   2554220882, 2821834349, 2952996808, 3210313671, 3336571891, 3584528711,
   113926993, 338241895, 666307205, 773529912, 1294757372, 1396182291,
   1695183700, 1986661051, 2177026350, 2456956037, 2730485921, 2820302411,
   3259730800, 3345764771, 3516065817, 3600352804, 4094571909, 275423344,
   430227734, 506948616, 659060556, 883997877, 958139571, 1322822218,
   1537002063, 1747873779, 1955562222, 2024104815, 2227730452, 2361852424,
   2428436474, 2756734187, 3204031479, 3329325298]

/-- Initial hash value (FIPS 180-4 §5.3.3, in decimal; the first word is
0x6a09e667). -/
def H0 : List Nat :=
  [1779033703, 3144134277, 1013904242, 2773480762,
   1359893119, 2600822924, 528734635, 1541459225]

/-- Message padding: `0x80`, zeros, then the 64-bit bit length. -/
def pad (msg : Bytes) : Bytes :=
  let L := msg.length
  let zeros := (64 + 56 - (L + 1) % 64) % 64
  msg ++ [0x80] ++ List.replicate zeros 0 ++ natToBytesBE 8 (8 * L)

/-- A 64-byte block as 16 big-endian 32-bit words. -/
def toWords (block : Bytes) : List Nat :=
  (chunks 4 block).map bytesToNatBE

/-- Extend 16 words to the 64-word message schedule. -/
def schedule (ws : List Nat) : List Nat :=
  (List.range 48).foldl
    (fun w _ =>
      w ++ [(smallS1 (w.getD (w.length - 2) 0) + w.getD (w.length - 7) 0 +
             smallS0 (w.getD (w.length - 15) 0) + w.getD (w.length - 16) 0) % 4294967296])
    ws

/-- One compression round. -/
def round (st : Nat × Nat × Nat × Nat × Nat × Nat × Nat × Nat) (kw : Nat × Nat) :
    Nat × Nat × Nat × Nat × Nat × Nat × Nat × Nat :=
  let (a, b, c, d, e, f, g, h) := st
  let t1 := (h + bigS1 e + ch e f g + kw.1 + kw.2) % 4294967296
  let t2 := (bigS0 a + maj a b c) % 4294967296
  ((t1 + t2) % 4294967296, a, b, c, (d + t1) % 4294967296, e, f, g)

/-- Compress one 64-byte block into the running hash (8 words). -/
def compressBlock (h : List Nat) (block : Bytes) : List Nat :=
  let w := schedule (toWords block)
  let init := (h.getD 0 0, h.getD 1 0, h.getD 2 0, h.getD 3 0,
               h.getD 4 0, h.getD 5 0, h.getD 6 0, h.getD 7 0)
  let st := (K.zip w).foldl round init
  [(h.getD 0 0 + st.1) % 4294967296, (h.getD 1 0 + st.2.1) % 4294967296,
   (h.getD 2 0 + st.2.2.1) % 4294967296, (h.getD 3 0 + st.2.2.2.1) % 4294967296,
   (h.getD 4 0 + st.2.2.2.2.1) % 4294967296, (h.getD 5 0 + st.2.2.2.2.2.1) % 4294967296,
   (h.getD 6 0 + st.2.2.2.2.2.2.1) % 4294967296, (h.getD 7 0 + st.2.2.2.2.2.2.2) % 4294967296]

end SHA256

/-- SHA-256 digest (32 bytes) of a byte string (`hashlib.sha256(_).digest()`). -/
def sha256 (msg : Bytes) : Bytes :=
  ((chunks 64 (SHA256.pad msg)).foldl SHA256.compressBlock SHA256.H0).flatMap
    (natToBytesBE 4)

/-! ## BIP39 mnemonic service

Modelled from the spec: the repository's `PawWallet.generate_mnemonic` /
`validate_mnemonic` delegate to the external `mnemonic` package
(`Mnemonic("english").generate` / `.check`), whose code is not in the
repository.  Spec §4.1: `generate` draws `strengthBits` bits of entropy,
appends the leading `strengthBits/32` bits of `SHA256(entropy)` as a
checksum, and maps the combined bit string to 11-bit word-list indices;
`validate` recomputes entropy+checksum from the indices and never throws.
The fixed 2048-word list is a bijection between words and indices
`0..2047`; a mnemonic is represented by its list of word indices, an
unknown word by an index `≥ 2048`. -/

/-- Modelled from the spec: §4.1 `generate` — the entropy drawn from the
CSPRNG is the explicit `entropy` argument (`strengthBits = 8 *
entropy.length` bits); the result is the word-index list. -/
def generateMnemonic (entropy : Bytes) : List Nat :=
  let csBits := (8 * entropy.length) / 32
  let bits := bytesToBits entropy ++ (bytesToBits (sha256 entropy)).take csBits
  (chunks 11 bits).map bitsToNat

/-- The word-count gate of `Mnemonic.check`: 12, 15, 18, 21 or 24 words. -/
def wordCountOk (n : Nat) : Bool :=
  n == 12 || n == 15 || n == 18 || n == 21 || n == 24

/-- Modelled from the spec: §4.1 `validate` — total, returns `false` on a
malformed word count, an unknown word (index `≥ 2048`), or a checksum
mismatch. -/
def validateMnemonic (words : List Nat) : Bool :=
  wordCountOk words.length &&
  words.all (· < 2048) &&
  (let bits := words.flatMap (natToBits 11)
   let csBits := words.length / 3
   let entropy := bitsToBytes (bits.take (bits.length - csBits))
   bits.drop (bits.length - csBits) == (bytesToBits (sha256 entropy)).take csBits)

/-! ## bech32

Modelled from the spec: `_get_address` calls the external `bech32` package
(`convertbits`, `bech32_encode`); §6 requires the bech32 charset, 5-bit
regrouping and checksum bit-exactly per the bech32 specification, so these
are the reference-implementation algorithms, executable. -/

/-- The 32-character bech32 data charset. -/
def bech32Charset : List Char := "qpzry9x8gf2tvdw0s3jn54khce6mua7l".toList

/-- The five generator constants of the bech32 checksum. -/
def bech32Gen : List Nat := [0x3b6a57b2, 0x26508e6d, 0x1ea119fa, 0x3d4233dd, 0x2a1462b3]

/-- `bech32_polymod` of the reference implementation. -/
def bech32Polymod (values : List Nat) : Nat :=
  values.foldl
    (fun chk v =>
      let top := chk >>> 25
      let chk' := ((chk &&& 0x1ffffff) <<< 5) ^^^ v
      (List.range 5).foldl
        (fun c i => if (top >>> i) &&& 1 = 1 then c ^^^ bech32Gen.getD i 0 else c) chk')
    1

/-- `bech32_hrp_expand`: high bits of each hrp char, a zero, low bits. -/
def bech32HrpExpand (hrp : String) : List Nat :=
  hrp.toList.map (fun c => c.toNat >>> 5) ++ [0] ++ hrp.toList.map (fun c => c.toNat &&& 31)

/-- `bech32_create_checksum`: six 5-bit checksum symbols. -/
def bech32CreateChecksum (hrp : String) (data : List Nat) : List Nat :=
  let values := bech32HrpExpand hrp ++ data
  let polymod := bech32Polymod (values ++ [0, 0, 0, 0, 0, 0]) ^^^ 1
  (List.range 6).map (fun i => (polymod >>> (5 * (5 - i))) &&& 31)

/-- `bech32_encode hrp data`: hrp, separator `1`, data+checksum in the charset. -/
def bech32Encode (hrp : String) (data : List Nat) : String :=
  hrp ++ "1" ++
    String.mk ((data ++ bech32CreateChecksum hrp data).map (fun d => bech32Charset.getD d '?'))

/-- Inner emission loop of `convertbits`: while `bits >= tobits`, emit the
top `tobits` bits.  Fuel-driven; returns the emitted symbols and the
remaining bit count. -/
def cbEmit (tobits maxv : Nat) : Nat → Nat → Nat → List Nat × Nat
  | 0, _, bits => ([], bits)
  | f + 1, acc, bits =>
    if tobits ≤ bits then
      let bits' := bits - tobits
      let out := (acc >>> bits') &&& maxv
      let r := cbEmit tobits maxv f acc bits'
      (out :: r.1, r.2)
    else ([], bits)

/-- One step of the `convertbits` fold over the input values. -/
def cbStep (frombits tobits maxv maxAcc : Nat)
    (st : Option (Nat × Nat × List Nat)) (v : Nat) : Option (Nat × Nat × List Nat) :=
  match st with
  | none => none
  | some (acc, bits, ret) =>
    if v >>> frombits ≠ 0 then none
    else
      let acc' := ((acc <<< frombits) ||| v) &&& maxAcc
      let bits' := bits + frombits
      let r := cbEmit tobits maxv (bits' / tobits + 1) acc' bits'
      some (acc', r.2, ret ++ r.1)

/-- `bech32.convertbits data frombits tobits pad`: general power-of-two base
conversion; `none` is the reference implementation's `None`. -/
def convertbits (data : List Nat) (frombits tobits : Nat) (pad : Bool) :
    Option (List Nat) :=
  let maxv := (1 <<< tobits) - 1
  let maxAcc := (1 <<< (frombits + tobits - 1)) - 1
  match data.foldl (cbStep frombits tobits maxv maxAcc) (some (0, 0, [])) with
  | none => none
  | some (acc, bits, ret) =>
    if pad then
      if bits ≠ 0 then some (ret ++ [(acc <<< (tobits - bits)) &&& maxv]) else some ret
    else if frombits ≤ bits ∨ ((acc <<< (tobits - bits)) &&& maxv) ≠ 0 then none
    else some ret

/-! ## secp256k1 ECDSA

Modelled from the spec: the repository calls the external `ecdsa` package
(`SigningKey.from_string(curve=SECP256k1)`, `get_verifying_key`,
`sign_digest(..., sigencode=sigencode_string_canonize)`); §6 requires the
secp256k1 curve parameters bit-exactly and §4.4 the canonical low-S 64-byte
`r‖s` form.  Affine arithmetic over the prime field, fuel-driven so the
kernel can evaluate it.  `sign_digest` draws a fresh random nonce per call
(`k=None` → `randrange(order)`); the nonce is the explicit `k` argument. -/

namespace Secp256k1

/-- The field prime `p = 2^256 - 2^32 - 977`. -/
def P : Nat := 0xFFFFFFFFFFFFFFFFFFFFFFFFFFFFFFFFFFFFFFFFFFFFFFFFFFFFFFFEFFFFFC2F

/-- The group order `n`. -/
def N : Nat := 0xFFFFFFFFFFFFFFFFFFFFFFFFFFFFFFFEBAAEDCE6AF48A03BBFD25E8CD0364141

/-- Generator x-coordinate. -/
def Gx : Nat := 0x79BE667EF9DCBBAC55A06295CE870B07029BFCDB2DCE28D959F2815B16F81798

/-- Generator y-coordinate. -/
def Gy : Nat := 0x483ADA7726A3C4655DA4FBFC0E1108A8FD17B448A68554199C47D08FFB10D4B8

/-- A curve point: `none` is the point at infinity. -/
abbrev Point := Option (Nat × Nat)

/-- Fuel-driven modular exponentiation (square and multiply). -/
def powModF (m : Nat) : Nat → Nat → Nat → Nat
  | 0, _, _ => 1 % m
  | f + 1, b, e =>
    if e = 0 then 1 % m
    else
      let r := powModF m f ((b * b) % m) (e / 2)
      if e % 2 = 1 then (r * (b % m)) % m else r

/-- `b ^ e mod m` for exponents below `2^300`. -/
def powMod (m b e : Nat) : Nat := powModF m 300 b e

/-- Modular inverse by Fermat's little theorem (`m` prime). -/
def invMod (m a : Nat) : Nat := powMod m a (m - 2)

/-- Point doubling (affine, `a = 0` curve coefficient). -/
def pdouble : Point → Point
  | none => none
  | some (x, y) =>
    if y = 0 then none
    else
      let lam := (3 * x * x % P) * invMod P ((2 * y) % P) % P
      let x3 := (lam * lam + 2 * P - 2 * x) % P
      let y3 := (lam * ((x + P - x3) % P) + (P - y % P)) % P
      some (x3, y3)

/-- Point addition (affine). -/
def padd : Point → Point → Point
  | none, q => q
  | p, none => p
  | some (x1, y1), some (x2, y2) =>
    if x1 = x2 then
      if (y1 + y2) % P = 0 then none else pdouble (some (x1, y1))
    else
      let lam := ((y2 + P - y1) % P) * invMod P ((x2 + P - x1) % P) % P
      let x3 := (lam * lam + 2 * P - x1 - x2) % P
      let y3 := (lam * ((x1 + P - x3) % P) + (P - y1 % P)) % P
      some (x3, y3)

/-- Fuel-driven double-and-add scalar multiplication. -/
def pmulF : Nat → Nat → Point → Point
  | 0, _, _ => none
  | f + 1, k, p =>
    if k = 0 then none
    else
      let half := pmulF f (k / 2) (pdouble p)
      if k % 2 = 1 then padd half p else half

/-- `k · p` for scalars below `2^300`. -/
def pmul (k : Nat) (p : Point) : Point := pmulF 300 k p

/-- The generator point `G`. -/
def G : Point := some (Gx, Gy)

/-- `ecdsa` signature over a 32-byte digest with explicit nonce `k`,
encoded by `sigencode_string_canonize`: fixed-width 64-byte `r‖s` with the
low-S normalization `if s > order/2: s = order - s`. -/
def signDigest (d : Nat) (digest : Bytes) (k : Nat) : Bytes :=
  let z := bytesToNatBE digest
  let r := (match pmul k G with | none => 0 | some (x, _) => x) % N
  let s := (invMod N k * ((z + r * d) % N)) % N
  let s' := if 2 * s > N then N - s else s
  natToBytesBE 32 r ++ natToBytesBE 32 s'

/-- `SigningKey.from_string(...).get_verifying_key().to_string("compressed")`:
the SEC1-compressed public point of private scalar `d`; `none` models a
`MalformedPointError` (scalar zero or not below the order, or length ≠ 32). -/
def derivePublicKey (private_key : Bytes) : Option Bytes :=
  if private_key.length ≠ 32 then none
  else
    let d := bytesToNatBE private_key
    if d = 0 ∨ N ≤ d then none
    else
      match pmul d G with
      | none => none
      | some (x, y) => some ((if y % 2 = 0 then 0x02 else 0x03) :: natToBytesBE 32 x)

end Secp256k1

/-! ## The `PawWallet` class (`archive/sdk/python/paw/wallet.py`)

State is the four `Optional` attributes set in `__init__`; python mutation
is modelled by returning the new wallet, and an uncaught exception by an
error value paired with the state as mutated up to the raise. -/

/-- The exceptions the wallet code can raise. -/
inductive WErr where
  /-- `ValueError("Invalid mnemonic phrase")` in `from_mnemonic`. -/
  | invalidMnemonic
  /-- `ValueError("Failed to convert address bits")` in `_get_address`. -/
  | encodingError
  /-- `RuntimeError("Wallet not initialized")` on the accessors and `sign`. -/
  | notInitialized
  /-- `ecdsa` raising on invalid key material in `_get_public_key`. -/
  | invalidKey
deriving DecidableEq

/-- `PawWallet.__init__` state: address prefix (field `prefix` of the
source, renamed because `prefix` is a Lean keyword) and the four
`Optional[...] = None` attributes. -/
structure PawWallet where
  hrp : String
  _private_key : Option Bytes
  _public_key : Option Bytes
  _address : Option String
  _mnemonic : Option (List Nat)
deriving DecidableEq

/-- `PawWallet(prefix)`. -/
def PawWallet.init (hrp : String) : PawWallet :=
  { hrp := hrp, _private_key := none, _public_key := none,
    _address := none, _mnemonic := none }

/-- The bytes of the literal `b"Bitcoin seed"`. -/
def bitcoinSeedKey : Bytes :=
  [0x42, 0x69, 0x74, 0x63, 0x6f, 0x69, 0x6e, 0x20, 0x73, 0x65, 0x65, 0x64]

/-- `PawWallet._derive_private_key(seed, hd_path)`: HMAC-SHA512 keyed with
`b"Bitcoin seed"` over the seed, first 32 bytes; `hd_path` is never read
(`hmacSha512 key msg` is the abstract external `hmac.new(key, msg,
sha512).digest()`). -/
def PawWallet._derive_private_key (hmacSha512 : Bytes → Bytes → Bytes)
    (seed : Bytes) (hd_path : String) : Bytes :=
  let master_key := hmacSha512 bitcoinSeedKey seed
  master_key.take 32

/-- `PawWallet._get_public_key(private_key)`: compressed SEC1 key via the
`ecdsa` package (`none` = the library raising on bad key material). -/
def PawWallet._get_public_key (private_key : Bytes) : Option Bytes :=
  Secp256k1.derivePublicKey private_key

/-- `PawWallet._get_address(public_key)`: bech32 of
`RIPEMD160(SHA256(public_key))` under the wallet's prefix (`ripemd160` is
the abstract external `hashlib.new("ripemd160")`). -/
def PawWallet._get_address (ripemd160 : Bytes → Bytes) (w : PawWallet)
    (public_key : Bytes) : Except WErr String :=
  let sha256_hash := sha256 public_key
  let ripemd160_hash := ripemd160 sha256_hash
  match convertbits ripemd160_hash 8 5 true with
  | none => .error .encodingError
  | some five_bit_r => .ok (bech32Encode w.hrp five_bit_r)

/-- The `address` property: raises `RuntimeError` until initialized. -/
def PawWallet.address (w : PawWallet) : Except WErr String :=
  match w._address with
  | none => .error .notInitialized
  | some a => .ok a

/-- The `public_key` property: raises `RuntimeError` until initialized. -/
def PawWallet.public_key (w : PawWallet) : Except WErr Bytes :=
  match w._public_key with
  | none => .error .notInitialized
  | some pk => .ok pk

/-- `PawWallet.sign(message)`: SHA-256 digest, then `sign_digest` with the
canonical string encoder.  `nonce` is the random per-call nonce the `ecdsa`
library draws internally (`k = randrange(order)`). -/
def PawWallet.sign (w : PawWallet) (message : Bytes) (nonce : Nat) :
    Except WErr Bytes :=
  match w._private_key with
  | none => .error .notInitialized
  | some private_key =>
      let d := bytesToNatBE private_key
      if private_key.length ≠ 32 ∨ d = 0 ∨ Secp256k1.N ≤ d then .error .invalidKey
      else .ok (Secp256k1.signDigest d (sha256 message) nonce)

/-- `PawWallet.from_mnemonic(mnemonic, hd_path)`: validate, then derive
seed → private key → public key → address, mutating the attributes in
source order (the `_mnemonic` and `_private_key` assignments are merged
into one state, faithful because nothing between them can raise).
Returns the wallet as mutated together with the exception, if one was
raised.  `toSeed` is the abstract external `Mnemonic.to_seed`
(PBKDF2-HMAC-SHA512 stretch). -/
def PawWallet.from_mnemonic (toSeed : List Nat → Bytes)
    (hmacSha512 : Bytes → Bytes → Bytes) (ripemd160 : Bytes → Bytes)
    (w : PawWallet) (mnemonic : List Nat) (hd_path : String) :
    PawWallet × Option WErr :=
  if ¬ validateMnemonic mnemonic then (w, some .invalidMnemonic)
  else
    let seed := toSeed mnemonic
    let private_key := PawWallet._derive_private_key hmacSha512 seed hd_path
    let w1 := { w with _mnemonic := some mnemonic, _private_key := some private_key }
    match PawWallet._get_public_key private_key with
    | none => (w1, some .invalidKey)
    | some public_key =>
        let w2 := { w1 with _public_key := some public_key }
        match PawWallet._get_address ripemd160 w2 public_key with
        | .error e => (w2, some e)
        | .ok addr => ({ w2 with _address := some addr }, none)

/-- The example wallet's `_derive_keys` (create_wallet.py): the private key
is simply the first 32 bytes of the seed. -/
def examplePrivateKeyFromSeed (seed : Bytes) : Bytes :=
  seed.take 32

/-! ## Fernet wallet storage (`wallet/fernet_storage.py`)

The external `cryptography` primitives (PBKDF2HMAC-SHA256, urlsafe base64,
the Fernet token format) are abstract, bundled in `StoragePrims`; the
properties the spec attributes to them (§4.5: authenticated encryption,
single generic failure) enter the theorems as hypotheses.  `os.urandom`
salts and the Fernet IV are explicit arguments. -/

/-- The external primitives `fernet_storage.py` imports.
`pbkdf2Sha256 password salt iterations length` is
`PBKDF2HMAC(SHA256(), length, salt, iterations).derive(password)`;
`fernetEncrypt key iv plaintext` is `Fernet(key).encrypt(plaintext)` with
its internal random IV made explicit; `fernetDecrypt key token` is
`Fernet(key).decrypt(token)`, `none` for the single generic `InvalidToken`
failure; `b64encode`/`b64decode` are `base64.urlsafe_b64encode`/`decode`
(`none` = `binascii.Error`). -/
structure StoragePrims where
  pbkdf2Sha256 : Bytes → Bytes → Nat → Nat → Bytes
  b64encode : Bytes → Bytes
  b64decode : Bytes → Option Bytes
  fernetEncrypt : Bytes → Bytes → Bytes → Bytes
  fernetDecrypt : Bytes → Bytes → Option Bytes

/-- `{data, salt}` — the stored blob.  Its only fields: the Fernet token
and the base64 salt; no iteration count and no version field. -/
structure FernetPayload where
  data : Bytes
  salt : Bytes
deriving DecidableEq

/-- `decrypt_wallet` failures (exceptions escaping the function). -/
inductive StorageErr where
  /-- `cryptography.fernet.InvalidToken`: the one generic authentication
  failure, carrying no cause. -/
  | invalidToken
  /-- `binascii.Error` from `base64.urlsafe_b64decode`. -/
  | base64Error
deriving DecidableEq

/-- `_derive_fernet_key(password, salt)` generalized over the module's
PBKDF2 iteration constant (the source hardcodes 600000; see
`_derive_fernet_key`). -/
def _derive_fernet_key_iter (P : StoragePrims) (iterations : Nat)
    (password salt : Bytes) : Bytes :=
  P.b64encode (P.pbkdf2Sha256 password salt iterations 32)

/-- `_derive_fernet_key(password, salt)`: urlsafe-base64 of
PBKDF2-HMAC-SHA256, `length=32`, `iterations=600_000` (hardcoded). -/
def _derive_fernet_key (P : StoragePrims) (password salt : Bytes) : Bytes :=
  _derive_fernet_key_iter P 600000 password salt

/-- `encrypt_wallet(state, password)` generalized over the iteration
constant; `salt` is the `os.urandom(16)` draw and `iv` the Fernet-internal
IV.  `state` is the byte string `state['serialized'].encode()`. -/
def encrypt_wallet_iter (P : StoragePrims) (iterations : Nat)
    (state password salt iv : Bytes) : FernetPayload :=
  let key := _derive_fernet_key_iter P iterations password salt
  let token := P.fernetEncrypt key iv (P.b64encode state)
  { data := token, salt := P.b64encode salt }

/-- `encrypt_wallet(state, password)` as in the source (600000 rounds). -/
def encrypt_wallet (P : StoragePrims) (state password salt iv : Bytes) :
    FernetPayload :=
  encrypt_wallet_iter P 600000 state password salt iv

/-- `decrypt_wallet(payload, password)` generalized over the iteration
constant: base64-decode the salt, re-derive the key, Fernet-decrypt the
token, base64-decode the plaintext back to the serialized state. -/
def decrypt_wallet_iter (P : StoragePrims) (iterations : Nat)
    (payload : FernetPayload) (password : Bytes) : Except StorageErr Bytes :=
  match P.b64decode payload.salt with
  | none => .error .base64Error
  | some salt =>
    let key := _derive_fernet_key_iter P iterations password salt
    match P.fernetDecrypt key payload.data with
    | none => .error .invalidToken
    | some decrypted =>
      match P.b64decode decrypted with
      | none => .error .base64Error
      | some serialized => .ok serialized

/-- `decrypt_wallet(payload, password)` as in the source (600000 rounds). -/
def decrypt_wallet (P : StoragePrims) (payload : FernetPayload)
    (password : Bytes) : Except StorageErr Bytes :=
  decrypt_wallet_iter P 600000 payload password

/-! ## Concrete toy instantiation of the abstract primitives

Used only to witness the hypotheses of the storage/derivation theorems at
concrete inputs: a base64 that is the identity, a one-byte PBKDF2 that
separates the witnesses' inputs, and a Fernet that prepends the (one-byte)
key and refuses any token not carrying it — an authenticated-encryption
toy faithful to the interfaces. -/

def toyPrims : StoragePrims where
  pbkdf2Sha256 := fun password salt iterations length =>
    [(password.sum + 2 * salt.sum + 3 * iterations + 5 * length) % 251]
  b64encode := fun b => b
  b64decode := fun b => some b
  fernetEncrypt := fun key _iv pt => key ++ pt
  fernetDecrypt := fun key token =>
    if token.take 1 = key then some (token.drop 1) else none

/-! ## Lemmas -/

theorem natToBits_length (w n : Nat) : (natToBits w n).length = w := by
  induction w generalizing n with
  | zero => rfl
  | succ w ih => simp [natToBits, ih]

theorem bitsToNat_append_bit (l : List Bool) (b : Bool) :
    bitsToNat (l ++ [b]) = 2 * bitsToNat l + (if b then 1 else 0) := by
  simp [bitsToNat, List.foldl_append]

theorem bitsToNat_lt (l : List Bool) : bitsToNat l < 2 ^ l.length := by
  induction l using List.reverseRecOn with
  | nil => simp [bitsToNat]
  | append_singleton l b ih =>
      rw [bitsToNat_append_bit]
      simp only [List.length_append, List.length_singleton, pow_succ]
      cases b <;> simp <;> omega

theorem natToBits_bitsToNat (l : List Bool) :
    natToBits l.length (bitsToNat l) = l := by
  induction l using List.reverseRecOn with
  | nil => rfl
  | append_singleton l b ih =>
      rw [bitsToNat_append_bit]
      simp only [List.length_append, List.length_singleton]
      rw [natToBits]
      have hdiv : (2 * bitsToNat l + (if b then 1 else 0)) / 2 = bitsToNat l := by
        cases b <;> simp <;> omega
      have hmod : (2 * bitsToNat l + (if b then 1 else 0)) % 2 = (if b then 1 else 0) := by
        cases b <;> simp [Nat.add_mul_mod_self_left] <;> omega
      rw [hdiv, hmod, ih]
      cases b <;> simp

theorem bitsToNat_natToBits (w n : Nat) (h : n < 2 ^ w) :
    bitsToNat (natToBits w n) = n := by
  induction w generalizing n with
  | zero =>
      simp only [pow_zero, Nat.lt_one_iff] at h
      subst h; rfl
  | succ w ih =>
      have hp : (2 : Nat) ^ (w + 1) = 2 ^ w * 2 := pow_succ 2 w
      have h2 : n / 2 < 2 ^ w := by omega
      rw [natToBits, bitsToNat_append_bit, ih (n / 2) h2]
      rcases Nat.mod_two_eq_zero_or_one n with h2' | h2' <;> simp [h2'] <;> omega

theorem chunksF_nil {α : Type} (f n : Nat) : chunksF f n ([] : List α) = [] := by
  cases f <;> rfl

theorem chunksF_flatten {α : Type} (f n : Nat) (l : List α) (hn : 0 < n)
    (hf : l.length ≤ f) : (chunksF f n l).flatten = l := by
  induction f generalizing l with
  | zero =>
      have : l = [] := List.length_eq_zero.mp (by omega)
      simp [this, chunksF]
  | succ f ih =>
      cases l with
      | nil => simp [chunksF]
      | cons a as =>
          rw [chunksF, List.flatten_cons,
            ih _ (by simp only [List.length_drop, List.length_cons] at hf ⊢; omega),
            List.take_append_drop]

theorem chunksF_mem_length {α : Type} (f n : Nat) (l : List α) (c : List α)
    (hn : 0 < n) (hd : n ∣ l.length) (hf : l.length ≤ f)
    (hc : c ∈ chunksF f n l) : c.length = n := by
  induction f generalizing l with
  | zero =>
      have : l = [] := List.length_eq_zero.mp (by omega)
      subst this
      simp [chunksF] at hc
  | succ f ih =>
      cases l with
      | nil => simp [chunksF] at hc
      | cons a as =>
          rw [chunksF] at hc
          have hlen : n ≤ (a :: as).length := by
            rcases hd with ⟨k, hk⟩
            have : k ≠ 0 := by
              intro h; rw [h] at hk; simp at hk
            have : 1 ≤ k := by omega
            calc n = n * 1 := by ring
            _ ≤ n * k := Nat.mul_le_mul_left n this
            _ = (a :: as).length := hk.symm
          rcases List.mem_cons.mp hc with h | h
          · rw [h, List.length_take]; omega
          · refine ih ((a :: as).drop n) ?_ ?_ h
            · rcases hd with ⟨k, hk⟩
              exact ⟨k - 1, by rw [List.length_drop, hk]; rcases k with _ | k <;> simp <;> ring_nf <;> omega⟩
            · rw [List.length_drop]; omega

theorem chunksF_length {α : Type} (f n : Nat) (l : List α) (hn : 0 < n)
    (hd : n ∣ l.length) (hf : l.length ≤ f) :
    (chunksF f n l).length = l.length / n := by
  induction f generalizing l with
  | zero =>
      have : l = [] := List.length_eq_zero.mp (by omega)
      subst this; simp [chunksF]
  | succ f ih =>
      cases l with
      | nil => simp [chunksF]
      | cons a as =>
          rcases hd with ⟨k, hk⟩
          have hk1 : 1 ≤ k := by
        
            by_contra h
            have : k = 0 := by omega
            rw [this] at hk; simp at hk
          have hlen : n ≤ (a :: as).length := by
            rw [hk]
            calc n = n * 1 := by ring
            _ ≤ n * k := Nat.mul_le_mul_left n hk1
          rw [chunksF, List.length_cons,
            ih _ ⟨k - 1, by rw [List.length_drop, hk]; cases k with
              | zero => omega
              | succ k => simp [Nat.mul_succ]⟩ (by rw [List.length_drop]; omega)]
          rw [List.length_drop, hk, Nat.mul_div_cancel_left _ hn]
          have : n * k - n = n * (k - 1) := by cases k with
            | zero => omega
            | succ k => simp [Nat.mul_succ]
          rw [this, Nat.mul_div_cancel_left _ hn]
          omega

theorem chunksF_flatten_uniform {α : Type} (n : Nat) (ls : List (List α))
    (hn : 0 < n) (hu : ∀ c ∈ ls, c.length = n) :
    ∀ f, ls.flatten.length ≤ f → chunksF f n ls.flatten = ls := by
  induction ls with
  | nil => intro f _; simp [chunksF_nil]
  | cons c ls ih =>
      intro f hf
      have hc : c.length = n := hu c (by simp)
      have hcne : c ≠ [] := by
        intro h; rw [h] at hc; simp at hc; omega
      have hflat : (c :: ls).flatten = c ++ ls.flatten := by simp
      rcases f with _ | f
      · exfalso
        rw [hflat] at hf
        simp [List.length_append, hc] at hf
        omega
      · have hne : c ++ ls.flatten ≠ [] := by
          intro h
          rcases List.append_eq_nil.mp h with ⟨h1, _⟩
          exact hcne h1
        rw [hflat]
        cases hcc : c ++ ls.flatten with
        | nil => exact absurd hcc hne
        | cons x xs =>
            rw [chunksF, ← hcc]
            have ht : (c ++ ls.flatten).take n = c := by
              rw [← hc]; exact List.take_left _ _
            have hd : (c ++ ls.flatten).drop n = ls.flatten := by
              rw [← hc]; exact List.drop_left _ _
            rw [ht, hd, ih (fun d hd => hu d (by simp [hd])) f ?_]
            rw [hflat, List.length_append, hc] at hf
            omega

theorem chunks_flatten {α : Type} (n : Nat) (l : List α) (hn : 0 < n) :
    (chunks n l).flatten = l :=
  chunksF_flatten _ n l hn le_rfl

theorem chunks_mem_length {α : Type} (n : Nat) (l : List α) (c : List α)
    (hn : 0 < n) (hd : n ∣ l.length) (hc : c ∈ chunks n l) : c.length = n :=
  chunksF_mem_length _ n l c hn hd le_rfl hc

theorem chunks_length {α : Type} (n : Nat) (l : List α) (hn : 0 < n)
    (hd : n ∣ l.length) : (chunks n l).length = l.length / n :=
  chunksF_length _ n l hn hd le_rfl

theorem chunks_flatten_uniform {α : Type} (n : Nat) (ls : List (List α))
    (hn : 0 < n) (hu : ∀ c ∈ ls, c.length = n) :
    chunks n ls.flatten = ls :=
  chunksF_flatten_uniform n ls hn hu _ le_rfl

theorem bytesToBits_length (bs : Bytes) :
    (bytesToBits bs).length = 8 * bs.length := by
  induction bs with
  | nil => rfl
  | cons b bs ih =>
      simp [bytesToBits, List.flatMap_cons, natToBits_length] at *
      omega

theorem bytesToBits_eq_flatten (bs : Bytes) :
    bytesToBits bs = (bs.map (natToBits 8)).flatten := by
  simp [bytesToBits, List.flatMap_def]

theorem bitsToBytes_bytesToBits (bs : Bytes) (hb : ∀ b ∈ bs, b < 256) :
    bitsToBytes (bytesToBits bs) = bs := by
  rw [bitsToBytes, bytesToBits_eq_flatten,
    chunks_flatten_uniform 8 (bs.map (natToBits 8)) (by norm_num)
      (by intro c hc
          rcases List.mem_map.mp hc with ⟨b, _, rfl⟩
          exact natToBits_length 8 b)]
  rw [List.map_map]
  have : ∀ b ∈ bs, (bitsToNat ∘ natToBits 8) b = id b := by
    intro b hb'
    simpa using bitsToNat_natToBits 8 b (by have := hb b hb'; norm_num; omega)
  rw [List.map_congr_left this, List.map_id]

theorem natToBytesBE_length (len n : Nat) : (natToBytesBE len n).length = len := by
  induction len generalizing n with
  | zero => rfl
  | succ len ih => simp [natToBytesBE, ih]

theorem compressBlock_length (h : List Nat) (block : Bytes) :
    (SHA256.compressBlock h block).length = 8 := by
  rw [SHA256.compressBlock]
  rfl

theorem sha256_length (msg : Bytes) : (sha256 msg).length = 32 := by
  rw [sha256]
  have hfold : ∀ (bs : List Bytes) (h : List Nat), h.length = 8 →
      (bs.foldl SHA256.compressBlock h).length = 8 := by
    intro bs
    induction bs with
    | nil => intro h hh; exact hh
    | cons b bs ih => intro h hh; exact ih _ (compressBlock_length h b)
  have h8 : ((chunks 64 (SHA256.pad msg)).foldl SHA256.compressBlock SHA256.H0).length = 8 :=
    hfold _ _ rfl
  generalize hx : (chunks 64 (SHA256.pad msg)).foldl SHA256.compressBlock SHA256.H0 = x
  rw [hx] at h8
  rw [List.length_flatMap]
  calc (x.map (fun a => (natToBytesBE 4 a).length)).sum
      = (x.map (fun _ => 4)).sum :=
        congrArg List.sum (List.map_congr_left (fun a _ => natToBytesBE_length 4 a))
    _ = 32 := by simp [List.map_const', List.sum_replicate, h8]

theorem generateMnemonic_core (entropy : Bytes) (k : Nat)
    (hk : entropy.length = 4 * k) (hk256 : k ≤ 256)
    (hb : ∀ b ∈ entropy, b < 256) (hwc : wordCountOk (3 * k) = true) :
    (generateMnemonic entropy).length = 3 * k ∧
    validateMnemonic (generateMnemonic entropy) = true := by
  have hsha : (bytesToBits (sha256 entropy)).length = 256 := by
    rw [bytesToBits_length, sha256_length]
  have hcs : 8 * entropy.length / 32 = k := by rw [hk]; omega
  have hE : (bytesToBits entropy).length = 32 * k := by
    rw [bytesToBits_length, hk]; ring
  have hS : ((bytesToBits (sha256 entropy)).take (8 * entropy.length / 32)).length = k := by
    rw [hcs, List.length_take, hsha]; omega
  set bits := bytesToBits entropy ++
    (bytesToBits (sha256 entropy)).take (8 * entropy.length / 32) with hbits
  have hblen : bits.length = 33 * k := by
    rw [hbits, List.length_append, hE, hS]; ring
  have hdvd : 11 ∣ bits.length := ⟨3 * k, by rw [hblen]; ring⟩
  have hgen : generateMnemonic entropy = (chunks 11 bits).map bitsToNat := rfl
  have hlen : (generateMnemonic entropy).length = 3 * k := by
    rw [hgen, List.length_map, chunks_length 11 bits (by norm_num) hdvd, hblen]
    omega
  refine ⟨hlen, ?_⟩
  have hmemlen : ∀ c ∈ chunks 11 bits, c.length = 11 := fun c hc =>
    chunks_mem_length 11 bits c (by norm_num) hdvd hc
  have hflat : (generateMnemonic entropy).flatMap (natToBits 11) = bits := by
    rw [hgen, List.flatMap_def, List.map_map]
    have : ∀ c ∈ chunks 11 bits, (natToBits 11 ∘ bitsToNat) c = id c := by
      intro c hc
      have h11 := hmemlen c hc
      simpa [Function.comp, h11] using congrArg (fun z => z) (by
        rw [← h11]; exact natToBits_bitsToNat c)
    rw [List.map_congr_left this, List.map_id]
    exact chunks_flatten 11 bits (by norm_num)
  rw [validateMnemonic]
  have hall : (generateMnemonic entropy).all (· < 2048) = true := by
    rw [hgen, List.all_eq_true]
    intro w hw
    rcases List.mem_map.mp hw with ⟨c, hc, rfl⟩
    have := bitsToNat_lt c
    rw [hmemlen c hc] at this
    simpa using Nat.lt_of_lt_of_le this (by norm_num)
  rw [hflat, hlen, hwc, hall]
  have htake : bits.take (32 * k) = bytesToBits entropy := by
    rw [hbits, ← hE]
    exact List.take_left _ _
  have hdrop : bits.drop (32 * k) =
      (bytesToBits (sha256 entropy)).take (8 * entropy.length / 32) := by
    rw [hbits, ← hE]
    exact List.drop_left _ _
  simp only [Bool.true_and, hblen]
  rw [show 3 * k / 3 = k from by omega, show 33 * k - k = 32 * k from by omega]
  rw [htake, hdrop, bitsToBytes_bytesToBits entropy hb, hcs]
  simp

theorem cbStep_some (frombits tobits maxv maxAcc : Nat) (st : Nat × Nat × List Nat)
    (v : Nat) (hv : v >>> frombits = 0) :
    ∃ st', cbStep frombits tobits maxv maxAcc (some st) v = some st' := by
  rcases st with ⟨acc, bits, ret⟩
  refine ⟨?_, ?_⟩
  · exact (((acc <<< frombits) ||| v) &&& maxAcc,
      (cbEmit tobits maxv ((bits + frombits) / tobits + 1)
        (((acc <<< frombits) ||| v) &&& maxAcc) (bits + frombits)).2,
      ret ++ (cbEmit tobits maxv ((bits + frombits) / tobits + 1)
        (((acc <<< frombits) ||| v) &&& maxAcc) (bits + frombits)).1)
  · simp [cbStep, hv]

theorem convertbits_fold_some (frombits tobits maxv maxAcc : Nat) (data : List Nat)
    (hd : ∀ v ∈ data, v >>> frombits = 0) :
    ∀ st : Nat × Nat × List Nat,
      ∃ st', data.foldl (cbStep frombits tobits maxv maxAcc) (some st) = some st' := by
  induction data with
  | nil => intro st; exact ⟨st, rfl⟩
  | cons v data ih =>
      intro st
      rw [List.foldl_cons]
      rcases cbStep_some frombits tobits maxv maxAcc st v (hd v (by simp)) with ⟨st', hst'⟩
      rw [hst']
      exact ih (fun u hu => hd u (by simp [hu])) st'

theorem convertbits_pad_isSome (data : List Nat) (frombits tobits : Nat)
    (hd : ∀ v ∈ data, v >>> frombits = 0) :
    (convertbits data frombits tobits true).isSome = true := by
  rw [convertbits]
  rcases convertbits_fold_some frombits tobits ((1 <<< tobits) - 1)
    ((1 <<< (frombits + tobits - 1)) - 1) data hd (0, 0, []) with ⟨⟨acc, bits, ret⟩, hst⟩
  rw [hst]
  by_cases hb : bits ≠ 0 <;> simp [hb]

/-! ## Claims -/

set_option maxRecDepth 200000 in
set_option maxHeartbeats 2000000 in
/-- C1: `PawWallet.sign` is not nonce-deterministic: `sign_digest` draws a
fresh random nonce per call, and the signature bytes depend on it — at the
concrete private key `0x…01` and message `b"a"`, the nonces 1 and 2 give
different 64-byte signatures, so two successive calls are byte-identical
only if the library happens to draw the same nonce twice. -/
theorem sign_depends_on_nonce :
    PawWallet.sign
      { hrp := "paw", _private_key := some (List.replicate 31 0 ++ [1]),
        _public_key := none, _address := none, _mnemonic := none } [97] 1
    ≠ PawWallet.sign
      { hrp := "paw", _private_key := some (List.replicate 31 0 ++ [1]),
        _public_key := none, _address := none, _mnemonic := none } [97] 2 := by
  decide

/-- C2: for every non-empty serialized wallet state bytes and every
password, decrypting the blob produced by `encrypt_wallet` with the same
password returns the original state.  The base64 and Fernet round-trip
properties of the external `cryptography` primitives are the hypotheses
`hsalt`, `hstate`, `hfernet`. -/
theorem decrypt_encrypt_roundtrip (P : StoragePrims)
    (state password salt iv : Bytes)
    (hne : state ≠ [])
    (hsalt : P.b64decode (P.b64encode salt) = some salt)
    (hstate : P.b64decode (P.b64encode state) = some state)
    (hfernet : P.fernetDecrypt (_derive_fernet_key P password salt)
        (P.fernetEncrypt (_derive_fernet_key P password salt) iv (P.b64encode state))
      = some (P.b64encode state)) :
    decrypt_wallet P (encrypt_wallet P state password salt iv) password
      = .ok state := by
  simp only [_derive_fernet_key] at hfernet
  simp only [decrypt_wallet, decrypt_wallet_iter, encrypt_wallet,
    encrypt_wallet_iter, hsalt, hfernet, hstate]

/-- C2 witness: the round trip at a concrete state, password, salt and IV
over the toy primitives. -/
theorem decrypt_encrypt_roundtrip_witness :
    decrypt_wallet toyPrims (encrypt_wallet toyPrims [7] [1] [2] []) [1]
      = .ok [7] :=
  decrypt_encrypt_roundtrip toyPrims [7] [1] [2] []
    (by decide) (by decide) (by decide) (by decide)

/-- C3: decrypting with a wrong password fails with the same single
generic `InvalidToken` (the spec's `AuthenticationError`) that a tampered
token produces — equal error values, no finer-grained cause.  `hauth` is
the authenticated-encryption property of Fernet at these keys (decryption
under the key derived from `pw2` of a token produced under the key derived
from `pw1` fails); `htamper` says Fernet rejects the tampered token. -/
theorem wrong_password_single_generic_error (P : StoragePrims)
    (state pw1 pw2 salt iv tampered : Bytes)
    (hpw : pw1 ≠ pw2)
    (hsalt : P.b64decode (P.b64encode salt) = some salt)
    (hauth : P.fernetDecrypt (_derive_fernet_key P pw2 salt)
        (P.fernetEncrypt (_derive_fernet_key P pw1 salt) iv (P.b64encode state)) = none)
    (htamper : P.fernetDecrypt (_derive_fernet_key P pw2 salt) tampered = none) :
    decrypt_wallet P (encrypt_wallet P state pw1 salt iv) pw2
      = .error .invalidToken
    ∧ decrypt_wallet P ⟨tampered, P.b64encode salt⟩ pw2 = .error .invalidToken
    ∧ decrypt_wallet P (encrypt_wallet P state pw1 salt iv) pw2
      = decrypt_wallet P ⟨tampered, P.b64encode salt⟩ pw2 := by
  simp only [_derive_fernet_key] at hauth htamper
  refine ⟨?_, ?_, ?_⟩ <;>
    simp only [decrypt_wallet, decrypt_wallet_iter, encrypt_wallet,
      encrypt_wallet_iter, hsalt, hauth, htamper]

/-- C3 witness: wrong password and a tampered token at concrete inputs
over the toy primitives. -/
theorem wrong_password_single_generic_error_witness :
    ([1] : Bytes) ≠ [2]
    ∧ decrypt_wallet toyPrims (encrypt_wallet toyPrims [7] [1] [3] []) [2]
      = .error .invalidToken :=
  ⟨by decide,
   (wrong_password_single_generic_error toyPrims [7] [1] [2] [3] [] [250]
     (by decide) (by decide) (by decide) (by decide)).1⟩

/-- C4: for a 64-byte seed the derived private key is a single flat
32-byte key — the SDK path takes `HMAC-SHA512(b"Bitcoin seed",
seed)[0:32]`, the example path `seed[0:32]` — no path walk is performed
and the `hd_path` argument has no effect on the result (`hmac64` says the
external HMAC-SHA512 returns 64 bytes, as it always does). -/
theorem derive_private_key_flat (hmacSha512 : Bytes → Bytes → Bytes)
    (seed : Bytes) (hd_path1 hd_path2 : String) (hlen : seed.length = 64)
    (hmac64 : (hmacSha512 bitcoinSeedKey seed).length = 64) :
    PawWallet._derive_private_key hmacSha512 seed hd_path1
      = (hmacSha512 bitcoinSeedKey seed).take 32
    ∧ (PawWallet._derive_private_key hmacSha512 seed hd_path1).length = 32
    ∧ PawWallet._derive_private_key hmacSha512 seed hd_path1
      = PawWallet._derive_private_key hmacSha512 seed hd_path2
    ∧ examplePrivateKeyFromSeed seed = seed.take 32
    ∧ (examplePrivateKeyFromSeed seed).length = 32 :=
  ⟨rfl,
   by rw [PawWallet._derive_private_key]; simp [List.length_take, hmac64],
   rfl, rfl,
   by rw [examplePrivateKeyFromSeed]; simp [List.length_take, hlen]⟩

/-- C4 witness: the flat derivation at a concrete 64-byte seed, a concrete
64-byte stand-in for HMAC-SHA512, and two different HD paths. -/
theorem derive_private_key_flat_witness :
    PawWallet._derive_private_key (fun _ m => m) (List.replicate 64 0) "m/0"
      = PawWallet._derive_private_key (fun _ m => m) (List.replicate 64 0) "m/1" :=
  (derive_private_key_flat (fun _ m => m) (List.replicate 64 0) "m/0" "m/1"
    (by decide) (by decide)).2.2.1

/-- C5: `_get_address` returns exactly
`bech32_encode(prefix, convertbits(RIPEMD160(SHA256(pk)), 8, 5))` — the
`convertbits is None` branch is unreachable for byte-valued hashes — and is
a pure function of the `(publicKey, prefix)` pair. -/
theorem address_encoding (ripemd160 : Bytes → Bytes) (w : PawWallet)
    (public_key : Bytes) (hpk : public_key.length = 33)
    (hr : ∀ b ∈ ripemd160 (sha256 public_key), b < 256) :
    PawWallet._get_address ripemd160 w public_key
      = .ok (bech32Encode w.hrp
          ((convertbits (ripemd160 (sha256 public_key)) 8 5 true).getD []))
    ∧ ∀ (w' : PawWallet) (pk' : Bytes), w'.hrp = w.hrp → pk' = public_key →
        PawWallet._get_address ripemd160 w' pk'
          = PawWallet._get_address ripemd160 w public_key := by
  have hshift : ∀ b ∈ ripemd160 (sha256 public_key), b >>> 8 = 0 := by
    intro b hb
    have := hr b hb
    simp [Nat.shiftRight_eq_div_pow]
    omega
  have hsome := convertbits_pad_isSome (ripemd160 (sha256 public_key)) 8 5 hshift
  rcases Option.isSome_iff_exists.mp hsome with ⟨five, hfive⟩
  constructor
  · rw [PawWallet._get_address]
    simp only [hfive, Option.getD_some]
  · intro w' pk' hh hp
    rw [PawWallet._get_address, PawWallet._get_address, hh, hp]

/-- C5 witness: a concrete address computation (toy RIPEMD-160 output of
20 in-range bytes, an initialized prefix, a concrete compressed key). -/
theorem address_encoding_witness :
    PawWallet._get_address (fun _ => List.range 20) (PawWallet.init "paw")
      (List.replicate 33 2)
      = .ok (bech32Encode "paw"
          ((convertbits (List.range 20) 8 5 true).getD [])) :=
  (address_encoding (fun _ => List.range 20) (PawWallet.init "paw")
    (List.replicate 33 2) (by decide) (by decide)).1

/-- C6: for every supported strength, the generated mnemonic has exactly
`strength/32*3` words and revalidates: the checksum appended by `generate`
is the one `validate` recomputes. -/
theorem generate_mnemonic_valid (strength : Nat) (entropy : Bytes)
    (hs : strength = 128 ∨ strength = 160 ∨ strength = 192 ∨ strength = 224 ∨
      strength = 256)
    (hlen : entropy.length = strength / 8) (hb : ∀ b ∈ entropy, b < 256) :
    (generateMnemonic entropy).length = strength / 32 * 3
    ∧ validateMnemonic (generateMnemonic entropy) = true := by
  rcases hs with h | h | h | h | h <;> subst h
  · have hc := generateMnemonic_core entropy 4 (by omega) (by norm_num) hb (by decide)
    exact ⟨by rw [hc.1], hc.2⟩
  · have hc := generateMnemonic_core entropy 5 (by omega) (by norm_num) hb (by decide)
    exact ⟨by rw [hc.1], hc.2⟩
  · have hc := generateMnemonic_core entropy 6 (by omega) (by norm_num) hb (by decide)
    exact ⟨by rw [hc.1], hc.2⟩
  · have hc := generateMnemonic_core entropy 7 (by omega) (by norm_num) hb (by decide)
    exact ⟨by rw [hc.1], hc.2⟩
  · have hc := generateMnemonic_core entropy 8 (by omega) (by norm_num) hb (by decide)
    exact ⟨by rw [hc.1], hc.2⟩

set_option maxRecDepth 40000 in
/-- C6 witness: 128 bits of zero entropy give a 12-word mnemonic that
revalidates. -/
theorem generate_mnemonic_valid_witness :
    (generateMnemonic (List.replicate 16 0)).length = 128 / 32 * 3
    ∧ validateMnemonic (generateMnemonic (List.replicate 16 0)) = true :=
  generate_mnemonic_valid 128 (List.replicate 16 0) (Or.inl rfl)
    (by decide) (by decide)

/-- C7 amended: `validate` is total — it returns `false` (rather than
throwing) on a malformed word count, on any unknown word, and in
particular mutating the last word of a valid mnemonic to an unknown word
yields `false` — but a last-word mutation is not always invalid (see the
counterexample: a mutation whose recomputed checksum matches validates). -/
theorem validate_total_never_throws (ws : List Nat) (w' : Nat) :
    (wordCountOk ws.length = false → validateMnemonic ws = false)
    ∧ ((∃ u ∈ ws, 2048 ≤ u) → validateMnemonic ws = false)
    ∧ (validateMnemonic ws = true → 2048 ≤ w' →
        validateMnemonic (ws.dropLast ++ [w']) = false) := by
  refine ⟨?_, ?_, ?_⟩
  · intro h
    simp [validateMnemonic, h]
  · rintro ⟨u, hu, h2048⟩
    have hall : ws.all (· < 2048) = false := by
      simp only [List.all_eq_false]
      exact ⟨u, hu, by simpa using h2048⟩
    simp [validateMnemonic, hall]
  · intro hv h2048
    have hwc : wordCountOk ws.length = true := by
      rw [validateMnemonic] at hv
      simp only [Bool.and_eq_true] at hv
      exact hv.1.1
    have hne : ws ≠ [] := by
      intro h
      subst h
      simp [wordCountOk] at hwc
    have hall : (ws.dropLast ++ [w']).all (· < 2048) = false := by
      simp only [List.all_append, List.all_cons, List.all_nil, Bool.and_true]
      have : decide (w' < 2048) = false := by simp; omega
      rw [this, Bool.and_false]
    simp [validateMnemonic, hall]

set_option maxRecDepth 40000 in
/-- C7 witness: mutating the last word of the valid mnemonic
`[0,...,0,3]` to the unknown index 5000 makes `validate` return `false`. -/
theorem validate_total_never_throws_witness :
    validateMnemonic
      (([0, 0, 0, 0, 0, 0, 0, 0, 0, 0, 0, 3] : List Nat).dropLast ++ [5000]) = false :=
  (validate_total_never_throws [0, 0, 0, 0, 0, 0, 0, 0, 0, 0, 0, 3] 5000).2.2
    (by decide) (by decide)

set_option maxRecDepth 40000 in
/-- C7 counterexample: the valid 12-word mnemonic `[0,...,0,3]` mutated in
its last word to `[0,...,0,23]` is again valid — word 23 = entropy bits
`0000001` plus the matching checksum `0111` — so mutating the last word
does not always make `validate` return `false`. -/
theorem validate_mutated_last_word_can_stay_valid :
    validateMnemonic [0, 0, 0, 0, 0, 0, 0, 0, 0, 0, 0, 3] = true
    ∧ validateMnemonic [0, 0, 0, 0, 0, 0, 0, 0, 0, 0, 0, 23] = true
    ∧ ([0, 0, 0, 0, 0, 0, 0, 0, 0, 0, 0, 3] : List Nat).dropLast
      = ([0, 0, 0, 0, 0, 0, 0, 0, 0, 0, 0, 23] : List Nat).dropLast
    ∧ ([0, 0, 0, 0, 0, 0, 0, 0, 0, 0, 0, 3] : List Nat)
      ≠ [0, 0, 0, 0, 0, 0, 0, 0, 0, 0, 0, 23] := by
  decide

/-- C8 amended: the blob carries the salt (recoverably), but the PBKDF2
iteration count does not travel with it — both `encrypt_wallet` and
`decrypt_wallet` are the generalized functions fixed at the constant
600000 hardcoded in `_derive_fernet_key`. -/
theorem payload_carries_salt_not_iterations (P : StoragePrims)
    (state password salt iv : Bytes)
    (hsalt : P.b64decode (P.b64encode salt) = some salt) :
    (encrypt_wallet P state password salt iv).salt = P.b64encode salt
    ∧ P.b64decode (encrypt_wallet P state password salt iv).salt = some salt
    ∧ encrypt_wallet P state password salt iv
      = encrypt_wallet_iter P 600000 state password salt iv
    ∧ ∀ payload pw, decrypt_wallet P payload pw
      = decrypt_wallet_iter P 600000 payload pw :=
  ⟨rfl, hsalt, rfl, fun _ _ => rfl⟩

/-- C8 witness: the salt of a concrete blob decodes back to the salt that
was drawn. -/
theorem payload_carries_salt_not_iterations_witness :
    toyPrims.b64decode (encrypt_wallet toyPrims [7] [1] [2] []).salt = some [2] :=
  (payload_carries_salt_not_iterations toyPrims [7] [1] [2] [] (by decide)).2.1

/-- C8 counterexample: a blob written under the source's iteration constant
600000 no longer decrypts once the module constant is changed to 1000000 —
the iteration count is not carried by the blob, refuting "remains
decryptable even if the default parameters change later". -/
theorem iterations_do_not_travel :
    decrypt_wallet_iter toyPrims 1000000
      (encrypt_wallet toyPrims [7] [1] [2] []) [1] = .error .invalidToken := by
  rfl

/-- C9: `from_mnemonic` on an invalid mnemonic raises
`ValueError("Invalid mnemonic phrase")` before touching any key material:
the returned state is exactly the input wallet — `_private_key`,
`_public_key`, `_address` and `_mnemonic` unchanged. -/
theorem from_mnemonic_fail_fast (toSeed : List Nat → Bytes)
    (hmacSha512 : Bytes → Bytes → Bytes) (ripemd160 : Bytes → Bytes)
    (w : PawWallet) (mnemonic : List Nat) (hd_path : String)
    (hv : validateMnemonic mnemonic = false) :
    PawWallet.from_mnemonic toSeed hmacSha512 ripemd160 w mnemonic hd_path
      = (w, some .invalidMnemonic) := by
  simp [PawWallet.from_mnemonic, hv]

/-- C9 witness: a fresh wallet fed a one-word mnemonic stays uninitialized
and the call errors. -/
theorem from_mnemonic_fail_fast_witness :
    PawWallet.from_mnemonic (fun _ => []) (fun _ _ => []) (fun _ => [])
      (PawWallet.init "paw") [0] "m/0"
      = (PawWallet.init "paw", some .invalidMnemonic) :=
  from_mnemonic_fail_fast (fun _ => []) (fun _ _ => []) (fun _ => [])
    (PawWallet.init "paw") [0] "m/0" (by decide)

/-- C10: on a freshly constructed wallet — including one whose
`from_mnemonic` call failed validation — the `address` and `public_key`
properties and `sign` all raise `RuntimeError("Wallet not initialized")`
(whatever the message and nonce); no key material or address is
observable before initialization. -/
theorem uninitialized_wallet_raises (hrp : String) (message : Bytes) (nonce : Nat) :
    (PawWallet.init hrp).address = .error .notInitialized
    ∧ (PawWallet.init hrp).public_key = .error .notInitialized
    ∧ (PawWallet.init hrp).sign message nonce = .error .notInitialized
    ∧ ∀ (toSeed : List Nat → Bytes) (hmacSha512 : Bytes → Bytes → Bytes)
        (ripemd160 : Bytes → Bytes) (m : List Nat) (hd_path : String),
        validateMnemonic m = false →
        (PawWallet.from_mnemonic toSeed hmacSha512 ripemd160
            (PawWallet.init hrp) m hd_path).1.address = .error .notInitialized
        ∧ (PawWallet.from_mnemonic toSeed hmacSha512 ripemd160
            (PawWallet.init hrp) m hd_path).1.sign message nonce
          = .error .notInitialized := by
  refine ⟨rfl, rfl, rfl, ?_⟩
  intro toSeed hmacSha512 ripemd160 m hd_path hv
  have h : PawWallet.from_mnemonic toSeed hmacSha512 ripemd160
      (PawWallet.init hrp) m hd_path = (PawWallet.init hrp, some .invalidMnemonic) := by
    simp [PawWallet.from_mnemonic, hv]
  rw [h]
  exact ⟨rfl, rfl⟩

/-- C10 witness: after a failed `from_mnemonic` on a concrete one-word
mnemonic, reading the address still raises. -/
theorem uninitialized_wallet_raises_witness :
    (PawWallet.from_mnemonic (fun _ => []) (fun _ _ => []) (fun _ => [])
        (PawWallet.init "paw") [0] "m").1.address = .error .notInitialized :=
  ((uninitialized_wallet_raises "paw" [] 0).2.2.2
    (fun _ => []) (fun _ _ => []) (fun _ => []) [0] "m" (by decide)).1

end Paw
